import Mathlib

/-!
# Verification of the JSON Formatter & Size Analyzer core

Shallow embedding of the core logic of the single-page JSON inspection
tool: the parser/error-locator (`parseJsonWithError`), the tree builder
(`buildJsonTree`), the size accounting helper (`calculateSize`), the
expansion toggle (`toggleNode`), and the auto-expand effect of the `App`
component, together with proofs of the specification's claims about them.
-/

/-! ## The JSON value domain

JavaScript values produced by `JSON.parse`: `null`, booleans, numbers,
strings, arrays, and objects whose keys keep insertion order.  Numbers are
modelled as integers (the floating-point width of JS numbers is not
modelled; no claim depends on it).  Arrays and objects are modelled as a
mutual inductive family so that the tree builder can be defined by
structural recursion.
-/

mutual

inductive JValue where
  | null : JValue
  | bool : Bool → JValue
  | num : Int → JValue
  | str : String → JValue
  | arr : JArr → JValue
  | obj : JObj → JValue

inductive JArr where
  | nil : JArr
  | cons : JValue → JArr → JArr

inductive JObj where
  | nil : JObj
  | cons : String → JValue → JObj → JObj

end

/-- Number of elements of a JSON array (`obj.length` in the source). -/
def JArr.length : JArr → Nat
  | .nil => 0
  | .cons _ rest => rest.length + 1

/-- Number of keys of a JSON object (`Object.keys(obj).length`). -/
def JObj.length : JObj → Nat
  | .nil => 0
  | .cons _ _ rest => rest.length + 1

/-- The elements of a JSON array as a Lean list. -/
def JArr.toList : JArr → List JValue
  | .nil => []
  | .cons x rest => x :: rest.toList

/-- The key/value pairs of a JSON object as a Lean list (insertion order). -/
def JObj.toList : JObj → List (String × JValue)
  | .nil => []
  | .cons k v rest => (k, v) :: rest.toList

/-- The keys of a JSON object in insertion order (`Object.keys(obj)`). -/
def JObj.keys : JObj → List String
  | .nil => []
  | .cons k _ rest => k :: rest.keys

/-! ## Decimal rendering of array indices

Models the JavaScript template `${index}` (decimal notation).  Defined
with structural fuel so that it evaluates by kernel reduction. -/

/-- Decimal digit characters of `n`, most significant first; `fuel`
bounds the recursion depth (any `fuel > log10 n` gives the digits). -/
def natToChars : Nat → Nat → List Char
  | 0, _ => []
  | fuel + 1, n =>
    if n < 10 then [Nat.digitChar n]
    else natToChars fuel (n / 10) ++ [Nat.digitChar (n % 10)]

/-- Decimal string of a natural number, modelling JS `${index}`. -/
def natToString (n : Nat) : String := ⟨natToChars (n + 1) n⟩


/-! ## Minified serialization and size accounting

`JSON.stringify(obj)` with no indent argument: the minified canonical
serialization.  `calculateSize` models
`new Blob([JSON.stringify(obj)]).size`; a `Blob` built from a string
UTF-8-encodes it, so the size is the UTF-8 byte length of the minified
serialization. -/

/-- Lower-case hexadecimal digit character. -/
def hexDigit (n : Nat) : Char :=
  if n < 10 then Char.ofNat (48 + n) else Char.ofNat (87 + n)

/-- JSON string escaping of one character, as performed by
`JSON.stringify` on string values. -/
def escChar (c : Char) : List Char :=
  if c = '"' then ['\\', '"']
  else if c = '\\' then ['\\', '\\']
  else if c = '\n' then ['\\', 'n']
  else if c = '\t' then ['\\', 't']
  else if c = '\r' then ['\\', 'r']
  else if c = '\x08' then ['\\', 'b']
  else if c = '\x0c' then ['\\', 'f']
  else if c.toNat < 32 then
    ['\\', 'u', '0', '0', hexDigit (c.toNat / 16), hexDigit (c.toNat % 16)]
  else [c]

/-- A JSON string literal: quoted and escaped. -/
def jsonQuote (s : String) : String :=
  ⟨'"' :: s.data.foldr (fun c acc => escChar c ++ acc) ['"']⟩

mutual

/-- `JSON.stringify(obj)`: minified JSON serialization. -/
def serialize : JValue → String
  | .null => "null"
  | .bool true => "true"
  | .bool false => "false"
  | .num n => toString n
  | .str s => jsonQuote s
  | .arr xs => "[" ++ serializeArr xs ++ "]"
  | .obj kvs => "\x7b" ++ serializeObj kvs ++ "\x7d"

/-- Comma-separated serialization of array elements. -/
def serializeArr : JArr → String
  | .nil => ""
  | .cons x .nil => serialize x
  | .cons x (.cons y rest) => serialize x ++ "," ++ serializeArr (.cons y rest)

/-- Comma-separated serialization of object entries. -/
def serializeObj : JObj → String
  | .nil => ""
  | .cons k v .nil => jsonQuote k ++ ":" ++ serialize v
  | .cons k v (.cons k' v' rest) =>
    jsonQuote k ++ ":" ++ serialize v ++ "," ++ serializeObj (.cons k' v' rest)

end

/-- `calculateSize`: `new Blob([JSON.stringify(obj)]).size`, the UTF-8
byte length of the minified serialization. -/
def calculateSize (obj : JValue) : Nat := (serialize obj).utf8ByteSize


/-! ## The tree builder -/

/-- One display row of the tree (`interface JsonNode` in the source).
`expanded` is `none` when the source leaves the field `undefined`
(leaf rows). -/
structure JsonNode where
  key : String
  value : JValue
  type : String
  size : Nat
  path : String
  expanded : Option Bool

/-- `const currentPath = path ? `${path}.${key}` : key` — the dotted path
of the node currently being built. -/
def mkPath (path key : String) : String :=
  if path = "" then key else path ++ "." ++ key

/-- Display key of an array element: the JS template `[${index}]`. -/
def idxKey (i : Nat) : String := "[" ++ natToString i ++ "]"

mutual

/-- `buildJsonTree(obj, key = 'root', path = '')`: flat pre-order list of
display nodes.  Children of a container are materialized only when its
path is in `expandedNodes`. -/
def buildJsonTree (expandedNodes : Finset String) :
    JValue → String → String → List JsonNode
  | .null, key, path =>
    [⟨key, .null, "null", calculateSize .null, mkPath path key, none⟩]
  | .arr xs, key, path =>
    let currentPath := mkPath path key
    let size := calculateSize (.arr xs)
    let hd : JsonNode :=
      ⟨if key = "root" then "root" else key ++ " [" ++ natToString xs.length ++ "]",
        .arr xs, "array", size, currentPath,
        some (decide (currentPath ∈ expandedNodes))⟩
    if currentPath ∈ expandedNodes then
      hd :: buildArrChildren expandedNodes xs 0 currentPath
    else [hd]
  | .obj kvs, key, path =>
    let currentPath := mkPath path key
    let size := calculateSize (.obj kvs)
    let hd : JsonNode :=
      ⟨if key = "root" then "root" else key ++ " \x7b" ++ natToString kvs.length ++ "\x7d",
        .obj kvs, "object", size, currentPath,
        some (decide (currentPath ∈ expandedNodes))⟩
    if currentPath ∈ expandedNodes then
      hd :: buildObjChildren expandedNodes kvs currentPath
    else [hd]
  | .bool b, key, path =>
    [⟨key, .bool b, "boolean", calculateSize (.bool b), mkPath path key, none⟩]
  | .num n, key, path =>
    [⟨key, .num n, "number", calculateSize (.num n), mkPath path key, none⟩]
  | .str s, key, path =>
    [⟨key, .str s, "string", calculateSize (.str s), mkPath path key, none⟩]

/-- `obj.forEach((item, index) => nodes.push(...buildJsonTree(item,
`[${index}]`, currentPath)))` — recursion over array elements, indices
ascending from `i`. -/
def buildArrChildren (expandedNodes : Finset String) :
    JArr → Nat → String → List JsonNode
  | .nil, _, _ => []
  | .cons x rest, i, currentPath =>
    buildJsonTree expandedNodes x (idxKey i) currentPath
      ++ buildArrChildren expandedNodes rest (i + 1) currentPath

/-- `keys.forEach(objKey => nodes.push(...buildJsonTree(obj[objKey],
objKey, currentPath)))` — recursion over object entries in insertion
order. -/
def buildObjChildren (expandedNodes : Finset String) :
    JObj → String → List JsonNode
  | .nil, _ => []
  | .cons k v rest, currentPath =>
    buildJsonTree expandedNodes v k currentPath
      ++ buildObjChildren expandedNodes rest currentPath

end

/-- `toggleNode`: flip membership of one path in the expanded set. -/
def toggleNode (path : String) (s : Finset String) : Finset String :=
  if path ∈ s then s.erase path else insert path s


/-! ## Parser / error locator -/

/-- The error record built on parse failure (`interface JsonError`). -/
structure JsonError where
  message : String
  line : Nat
  column : Nat
  position : Nat

/-- Characters removed by JavaScript `String.prototype.trim`:
ECMAScript WhiteSpace and LineTerminator code points (Unicode
space-separator characters beyond NBSP are not modelled). -/
def isJsSpace (c : Char) : Bool :=
  c = ' ' || c = '\t' || c = '\n' || c = '\r' || c = '\x0b' || c = '\x0c' ||
    c = '\u00A0' || c = '\uFEFF' || c = '\u2028' || c = '\u2029'

/-- JavaScript `input.trim()` on the character list of the input. -/
def jsTrim (l : List Char) : List Char :=
  ((l.dropWhile isJsSpace).reverse.dropWhile isJsSpace).reverse

/-- JavaScript `s.split('\n')` on a character list: the maximal list of
newline-free segments. -/
def splitLines : List Char → List (List Char)
  | [] => [[]]
  | c :: rest =>
    if c = '\n' then [] :: splitLines rest
    else
      match splitLines rest with
      | [] => [[c]]
      | l :: ls => (c :: l) :: ls

/-- Numeric value of a run of decimal digit characters, most significant
first (JS `parseInt` on a digits-only string). -/
def digitsToNat (ds : List Char) : Nat :=
  ds.foldl (fun a c => 10 * a + (c.toNat - 48)) 0

/-- Attempt to match the regex `/position (\d+)/` at the head of `l`:
the literal `position ` followed by at least one digit. -/
def matchPositionHere (l : List Char) : Option Nat :=
  if "position ".data.isPrefixOf l then
    let ds := (l.drop 9).takeWhile Char.isDigit
    if ds = [] then none else some (digitsToNat ds)
  else none

/-- `error.message.match(/position (\d+)/)` followed by `parseInt`:
the number after the first occurrence of `position `, or 0 when the
pattern does not occur (`match ? parseInt(match[1]) : 0`). -/
def extractPosition : List Char → Nat
  | [] => 0
  | c :: rest =>
    match matchPositionHere (c :: rest) with
    | some n => n
    | none => extractPosition rest

/-- Whether the regex `/position (\d+)/` matches anywhere in `l`. -/
def hasPositionMatch : List Char → Bool
  | [] => false
  | c :: rest => (matchPositionHere (c :: rest)).isSome || hasPositionMatch rest

/-- The error-locator of `parseJsonWithError`:
`const lines = input.substring(0, position).split('\n');
 const line = lines.length;
 const column = lines[lines.length - 1].length + 1;` -/
def locate (input : String) (position : Nat) : Nat × Nat :=
  let lines := splitLines (input.data.take position)
  (lines.length, (lines.getLastD []).length + 1)

/-- The `JsonError` constructed in the catch branch of
`parseJsonWithError` from the input text and the raw parser message. -/
def mkJsonError (input msg : String) : JsonError :=
  let position := extractPosition msg.data
  { message := msg
    line := (locate input position).1
    column := (locate input position).2
    position := position }

/-! ## Application state and the parse / toggle step machine

`JSON.parse` itself is a browser primitive, not repository code; it is
taken as an abstract parameter `rawParse` returning either a value or a
raw error message.  The `parsedJson` state variable is a JS value whose
`null` doubles as the initial / absent state, exactly as in the source
(`useState<any>(null)`). -/

/-- JavaScript truthiness of a JSON value (`if (parsedJson && ...)`). -/
def jsTruthy : JValue → Bool
  | .null => false
  | .bool b => b
  | .num n => n ≠ 0
  | .str s => s ≠ ""
  | .arr _ => true
  | .obj _ => true

/-- The component state touched by the core logic. -/
structure AppState where
  jsonInput : String
  parsedJson : JValue
  jsonError : Option JsonError
  expandedNodes : Finset String

/-- `parseJsonWithError(input)`: reset to the neutral state on blank
input, otherwise store the parsed value and clear the error, or clear
the value and store the located error. -/
def parseStep (rawParse : String → Except String JValue) (input : String)
    (s : AppState) : AppState :=
  if jsTrim input.data = [] then
    { s with parsedJson := .null, jsonError := none }
  else
    match rawParse input with
    | .ok v => { s with parsedJson := v, jsonError := none }
    | .error msg =>
      { s with parsedJson := .null, jsonError := some (mkJsonError input msg) }

/-- The auto-expand effect:
`if (parsedJson && expandedNodes.size === 0) setExpandedNodes(new Set(['root']))`. -/
def expandEffect (s : AppState) : AppState :=
  if jsTruthy s.parsedJson ∧ s.expandedNodes = ∅ then
    { s with expandedNodes := {"root"} }
  else s

/-- External events driving the component: an input-text change (which
re-runs `parseJsonWithError`) and an expand/collapse toggle click. -/
inductive Event where
  | setInput : String → Event
  | toggle : String → Event

/-- One step of the component: apply the event, then the auto-expand
effect (whose dependencies `[parsedJson, expandedNodes.size]` make it run
after every parse and after every toggle). -/
def step (rawParse : String → Except String JValue) :
    Event → AppState → AppState
  | .setInput i, s => expandEffect (parseStep rawParse i { s with jsonInput := i })
  | .toggle p, s => expandEffect { s with expandedNodes := toggleNode p s.expandedNodes }

/-- The top-level statistics of the header bar: total size
(`new Blob([JSON.stringify(parsedJson)]).size`). -/
def documentTotalSize (v : JValue) : Nat := (serialize v).utf8ByteSize

/-- The `Items` statistic: array length for an array root, key count for
an object root, and 1 otherwise. -/
def itemCount : JValue → Nat
  | .arr xs => xs.length
  | .obj kvs => kvs.length
  | _ => 1

/-- The rendered tree: built only when `parsedJson` is truthy
(`if (!parsedJson) return []; return buildJsonTree(parsedJson);`). -/
def jsonTreeOf (s : AppState) : List JsonNode :=
  if jsTruthy s.parsedJson then
    buildJsonTree s.expandedNodes s.parsedJson "root" ""
  else []

/-! ## Auxiliary predicates and spec-side formulas -/

/-- A string containing no `.` character.  Dotted paths can only be
parsed unambiguously when keys are dot-free. -/
def dotFree (s : String) : Bool := s.data.all (fun c => c ≠ '.')

/-- Whether `k` occurs among the keys of an object. -/
def keyMem (k : String) : JObj → Bool
  | .nil => false
  | .cons k' _ rest => k = k' || keyMem k rest

mutual

/-- Every object inside the value has pairwise-distinct, dot-free keys.
Values produced by `JSON.parse` always have distinct keys; dot-free is
the extra hypothesis under which tree paths are unambiguous. -/
def goodVal : JValue → Bool
  | .null => true
  | .bool _ => true
  | .num _ => true
  | .str _ => true
  | .arr xs => goodArr xs
  | .obj kvs => goodObj kvs

/-- `goodVal` for every element of an array. -/
def goodArr : JArr → Bool
  | .nil => true
  | .cons x rest => goodVal x && goodArr rest

/-- Keys of the object are dot-free and pairwise distinct and all values
are good. -/
def goodObj : JObj → Bool
  | .nil => true
  | .cons k v rest => dotFree k && !keyMem k rest && goodVal v && goodObj rest

end

/-- Containers are arrays and objects. -/
def isContainer : JValue → Bool
  | .arr _ => true
  | .obj _ => true
  | _ => false

/-- The child blocks of a container at path `cp`: the full recursive
build result of each child, array indices ascending from 0, object keys
in insertion order. -/
def childBlocks (exp : Finset String) (obj : JValue) (cp : String) :
    List (List JsonNode) :=
  match obj with
  | .arr xs => (List.enumFrom 0 xs.toList).map fun q => buildJsonTree exp q.2 (idxKey q.1) cp
  | .obj kvs => kvs.toList.map fun kv => buildJsonTree exp kv.2 kv.1 cp
  | _ => []

/-- Zero-based index of the last newline of the list, if any. -/
def lastNewlineIdx : List Char → Option Nat
  | [] => none
  | c :: rest =>
    match lastNewlineIdx rest with
    | some j => some (j + 1)
    | none => if c = '\n' then some 0 else none

/-- Number of characters of the prefix up to and including the last
newline: `j + 1` when the last newline has index `j`, else 0. -/
def cutIdx : Option Nat → Nat
  | some j => j + 1
  | none => 0

/-- Modelled from the spec: `line` is 1 + the count of newline
characters in `text[0:offset]`. -/
def specLine (text : List Char) (off : Nat) : Nat :=
  (text.take off).count '\n' + 1

/-- Modelled from the spec: `column` is `offset` minus the index of the
last newline before `offset` (1-based within the line); with no newline
before `offset` the line starts at the text start and the column is
`offset + 1`. -/
def specColumn (text : List Char) (off : Nat) : Nat :=
  match lastNewlineIdx (text.take off) with
  | some j => off - j
  | none => off + 1

/-- `p` extends the path `cp` by the key `k`: it is `cp.k` itself or a
further `cp.k.…` descendant path. -/
def KeyExt (cp k p : String) : Prop :=
  ∃ t, (t = "" ∨ ∃ r, t = "." ++ r) ∧ p = cp ++ "." ++ (k ++ t)

/-! ## Concrete values used by the witnesses and counterexamples -/

/-- The parsed value of `{"a":1,"b":{"c":2,"d":{"e":3}},"f":[1,2,3]}`
(the concrete scenario of the spec). -/
def sampleNested : JValue :=
  .obj (.cons "a" (.num 1)
    (.cons "b" (.obj (.cons "c" (.num 2)
      (.cons "d" (.obj (.cons "e" (.num 3) .nil)) .nil)))
    (.cons "f" (.arr (.cons (.num 1) (.cons (.num 2) (.cons (.num 3) .nil))))
      .nil)))

/-- The parsed value of `{"a.b":1,"a":{"b":2}}` — valid JSON whose
first key contains a dot. -/
def dottedSample : JValue :=
  .obj (.cons "a.b" (.num 1) (.cons "a" (.obj (.cons "b" (.num 2) .nil)) .nil))

/-- A parser oracle for concrete runs: parses the text `0` to the
number 0 and fails on everything else. -/
def rawParseZero : String → Except String JValue :=
  fun s => if s = "0" then .ok (.num 0) else .error "Unexpected token"

/-- The initial component state: empty input, `null` parsed value, no
error, empty expanded set. -/
def initState : AppState := ⟨"", .null, none, ∅⟩

/-! ## String helper lemmas -/

theorem strAppend_left_cancel {a b c : String} (h : a ++ b = a ++ c) : b = c := by
  have hd := congrArg String.data h
  rw [String.data_append, String.data_append] at hd
  exact String.ext (List.append_cancel_left hd)

theorem strAppend_right_cancel {a b c : String} (h : a ++ c = b ++ c) : a = b := by
  have hd := congrArg String.data h
  rw [String.data_append, String.data_append] at hd
  exact String.ext (List.append_cancel_right hd)

theorem ne_self_append_dot (cp r : String) : cp ≠ cp ++ "." ++ r := by
  intro h
  have hl := congrArg String.length h
  rw [String.length_append, String.length_append] at hl
  have hone : ("." : String).length = 1 := rfl
  omega

theorem mkPath_of_ne {path : String} (key : String) (h : path ≠ "") :
    mkPath path key = path ++ "." ++ key := by
  simp [mkPath, h]

theorem mkPath_ne_empty {path key : String} (h : path ≠ "" ∨ key ≠ "") :
    mkPath path key ≠ "" := by
  by_cases hp : path = ""
  · subst hp
    simpa [mkPath] using h.resolve_left (by simp)
  · rw [mkPath_of_ne key hp]
    intro heq
    have hl := congrArg String.length heq
    rw [String.length_append, String.length_append] at hl
    have hone : ("." : String).length = 1 := rfl
    have hz : ("" : String).length = 0 := rfl
    omega

theorem dotFree_iff {s : String} : dotFree s = true ↔ ∀ c ∈ s.data, c ≠ '.' := by
  simp [dotFree, List.all_eq_true]

theorem sepChars : ∀ (u v a b : List Char),
    (∀ c ∈ u, c ≠ '.') → (∀ c ∈ v, c ≠ '.') →
    (a = [] ∨ ∃ r, a = '.' :: r) → (b = [] ∨ ∃ r, b = '.' :: r) →
    u ++ a = v ++ b → u = v ∧ a = b
  | [], v, a, b, _, hv, ha, _, h => by
    cases v with
    | nil => simpa using h
    | cons d v' =>
      simp only [List.nil_append, List.cons_append] at h
      rcases ha with rfl | ⟨r, rfl⟩
      · exact absurd h (by simp)
      · have hd : d = '.' := by
          have := h
          injection this with h1 _
          exact h1.symm
        exact absurd hd (hv d (by simp))
  | c :: u', v, a, b, hu, hv, ha, hb, h => by
    cases v with
    | nil =>
      simp only [List.cons_append, List.nil_append] at h
      rcases hb with rfl | ⟨r, rfl⟩
      · exact absurd h.symm (by simp)
      · have hc : c = '.' := by
          injection h.symm with h1 _
          exact h1.symm
        exact absurd hc (hu c (by simp))
    | cons d v' =>
      simp only [List.cons_append] at h
      injection h with h1 h2
      have ih := sepChars u' v' a b (fun x hx => hu x (by simp [hx]))
        (fun x hx => hv x (by simp [hx])) ha hb h2
      exact ⟨by rw [h1, ih.1], ih.2⟩

theorem dotted_tail_data {t : String} (h : t = "" ∨ ∃ r, t = "." ++ r) :
    t.data = [] ∨ ∃ l, t.data = '.' :: l := by
  rcases h with rfl | ⟨r, rfl⟩
  · exact Or.inl rfl
  · right
    exact ⟨r.data, by rw [String.data_append]; rfl⟩

theorem sepKeys {k k' t t' : String} (hk : dotFree k = true) (hk' : dotFree k' = true)
    (ht : t = "" ∨ ∃ r, t = "." ++ r) (ht' : t' = "" ∨ ∃ r, t' = "." ++ r)
    (h : k ++ t = k' ++ t') : k = k' := by
  have hd := congrArg String.data h
  rw [String.data_append, String.data_append] at hd
  have := sepChars k.data k'.data t.data t'.data
    (dotFree_iff.mp hk) (dotFree_iff.mp hk')
    (dotted_tail_data ht) (dotted_tail_data ht') hd
  exact String.ext this.1

theorem KeyExt.eq_key {cp k k' p : String} (hk : dotFree k = true)
    (hk' : dotFree k' = true) (h1 : KeyExt cp k p) (h2 : KeyExt cp k' p) : k = k' := by
  obtain ⟨t, ht, rfl⟩ := h1
  obtain ⟨t', ht', heq⟩ := h2
  exact sepKeys hk hk' ht ht' (strAppend_left_cancel heq)

theorem KeyExt.ne_base {cp k p : String} (h : KeyExt cp k p) : p ≠ cp := by
  obtain ⟨t, _, rfl⟩ := h
  intro heq
  exact ne_self_append_dot cp (k ++ t) heq.symm

/-! ## Decimal index keys: correctness, injectivity, dot-freeness -/

theorem digitChar_ne_dot {d : Nat} (hd : d < 10) : Nat.digitChar d ≠ '.' := by
  interval_cases d <;> decide

theorem digitChar_inj10 {a b : Nat} (ha : a < 10) (hb : b < 10)
    (h : Nat.digitChar a = Nat.digitChar b) : a = b := by
  interval_cases a <;> interval_cases b <;> simp_all <;> revert h <;> decide

theorem natToChars_eq_digits : ∀ (fuel n : Nat), 0 < fuel → n < 10 ^ fuel →
    natToChars fuel n =
      if n = 0 then ['0'] else (Nat.digits 10 n).reverse.map Nat.digitChar := by
  intro fuel
  induction fuel with
  | zero => omega
  | succ f ih =>
    intro n _ hn
    rw [natToChars]
    by_cases h10 : n < 10
    · by_cases h0 : n = 0
      · subst h0
        simp
        decide
      · have hdig : Nat.digits 10 n = [n] := by
          rw [Nat.digits_def' (by norm_num) (Nat.pos_of_ne_zero h0)]
          rw [Nat.mod_eq_of_lt h10, Nat.div_eq_of_lt h10]
          simp
        simp [h10, h0, hdig]
    · have hf' : 0 < f := by
        rcases Nat.eq_zero_or_pos f with rfl | hp
        · simp at hn
          omega
        · exact hp
      have hdiv : n / 10 < 10 ^ f := by
        rw [Nat.div_lt_iff_lt_mul (by norm_num)]
        calc n < 10 ^ (f + 1) := hn
          _ = 10 ^ f * 10 := by rw [pow_succ]
      have hd0 : n / 10 ≠ 0 := by
        have : 10 ≤ n := by omega
        have := Nat.div_le_div_right (c := 10) this
        simp at this
        omega
      have hpos : 0 < n := by omega
      rw [if_neg h10, ih (n / 10) hf' hdiv, if_neg hd0]
      have hdig : Nat.digits 10 n = n % 10 :: Nat.digits 10 (n / 10) :=
        Nat.digits_def' (by norm_num) hpos
      rw [if_neg (by omega), hdig]
      simp

theorem lt_ten_pow_succ (n : Nat) : n < 10 ^ (n + 1) :=
  lt_trans (Nat.lt_pow_self (by norm_num) n) (Nat.pow_lt_pow_succ (by norm_num))

theorem natToString_eq_digits (n : Nat) :
    (natToString n).data =
      if n = 0 then ['0'] else (Nat.digits 10 n).reverse.map Nat.digitChar := by
  show natToChars (n + 1) n = _
  exact natToChars_eq_digits (n + 1) n (Nat.succ_pos n) (lt_ten_pow_succ n)

theorem map_digitChar_inj : ∀ (l1 l2 : List Nat),
    (∀ d ∈ l1, d < 10) → (∀ d ∈ l2, d < 10) →
    l1.map Nat.digitChar = l2.map Nat.digitChar → l1 = l2
  | [], [], _, _, _ => rfl
  | [], d :: l2, _, _, h => by simp at h
  | d :: l1, [], _, _, h => by simp at h
  | d1 :: l1, d2 :: l2, h1, h2, h => by
    simp only [List.map_cons, List.cons.injEq] at h
    have hd := digitChar_inj10 (h1 d1 (by simp)) (h2 d2 (by simp)) h.1
    have := map_digitChar_inj l1 l2 (fun d hd => h1 d (by simp [hd]))
      (fun d hd => h2 d (by simp [hd])) h.2
    rw [hd, this]

theorem natToString_inj {a b : Nat} (h : natToString a = natToString b) : a = b := by
  have hd := congrArg String.data h
  rw [natToString_eq_digits, natToString_eq_digits] at hd
  by_cases ha : a = 0 <;> by_cases hb : b = 0
  · omega
  · rw [if_pos ha, if_neg hb] at hd
    have hlen := congrArg List.length hd
    simp at hlen
    obtain ⟨d, hdig⟩ := List.length_eq_one.mp hlen.symm
    have hb' : b = d := by
      have := Nat.ofDigits_digits 10 b
      rw [hdig] at this
      simpa [Nat.ofDigits] using this.symm
    rw [hdig] at hd
    simp at hd
    have hlt : d < 10 := Nat.digits_lt_base (by norm_num) (by rw [hdig]; simp)
    have hd0 : Nat.digitChar 0 = '0' := by decide
    have := digitChar_inj10 (by norm_num) hlt (hd0.trans hd)
    omega
  · rw [if_neg ha, if_pos hb] at hd
    have hlen := congrArg List.length hd
    simp at hlen
    obtain ⟨d, hdig⟩ := List.length_eq_one.mp hlen
    have ha' : a = d := by
      have := Nat.ofDigits_digits 10 a
      rw [hdig] at this
      simpa [Nat.ofDigits] using this.symm
    rw [hdig] at hd
    simp at hd
    have hlt : d < 10 := Nat.digits_lt_base (by norm_num) (by rw [hdig]; simp)
    have hd0 : Nat.digitChar 0 = '0' := by decide
    have := digitChar_inj10 hlt (by norm_num) (hd.trans hd0.symm)
    omega
  · rw [if_neg ha, if_neg hb] at hd
    have := map_digitChar_inj (Nat.digits 10 a).reverse (Nat.digits 10 b).reverse
      (fun d hd => Nat.digits_lt_base (by norm_num) (List.mem_reverse.mp hd))
      (fun d hd => Nat.digits_lt_base (by norm_num) (List.mem_reverse.mp hd)) hd
    have hrev := List.reverse_inj.mp this
    calc a = Nat.ofDigits 10 (Nat.digits 10 a) := (Nat.ofDigits_digits 10 a).symm
      _ = Nat.ofDigits 10 (Nat.digits 10 b) := by rw [hrev]
      _ = b := Nat.ofDigits_digits 10 b

theorem natToChars_ne_dot : ∀ (fuel n : Nat), ∀ c ∈ natToChars fuel n, c ≠ '.' := by
  intro fuel
  induction fuel with
  | zero => simp [natToChars]
  | succ f ih =>
    intro n c hc
    rw [natToChars] at hc
    by_cases h10 : n < 10
    · rw [if_pos h10] at hc
      simp at hc
      subst hc
      exact digitChar_ne_dot h10
    · rw [if_neg h10] at hc
      rcases List.mem_append.mp hc with h | h
      · exact ih (n / 10) c h
      · simp at h
        subst h
        exact digitChar_ne_dot (Nat.mod_lt n (by norm_num))

theorem natToString_dotFree (n : Nat) : dotFree (natToString n) = true :=
  dotFree_iff.mpr (natToChars_ne_dot (n + 1) n)

theorem idxKey_data (i : Nat) :
    (idxKey i).data = '[' :: (natToString i).data ++ [']'] := by
  show ("[" ++ natToString i ++ "]").data = _
  rw [String.data_append, String.data_append]
  rfl

theorem idxKey_inj {i j : Nat} (h : idxKey i = idxKey j) : i = j := by
  have hd := congrArg String.data h
  rw [idxKey_data, idxKey_data] at hd
  injection hd with _ hd
  exact natToString_inj (String.ext (List.append_cancel_right hd))

theorem idxKey_dotFree (i : Nat) : dotFree (idxKey i) = true := by
  rw [dotFree_iff]
  intro c hc
  rw [idxKey_data] at hc
  rcases List.mem_cons.mp hc with rfl | hc
  · decide
  · rcases List.mem_append.mp hc with h | h
    · exact natToChars_ne_dot (i + 1) i c h
    · simp at h
      subst h
      decide

/-! ## Lemmas on line splitting and the error locator -/

theorem splitLines_ne_nil : ∀ (l : List Char), splitLines l ≠ []
  | [] => by simp [splitLines]
  | c :: rest => by
    by_cases h : c = '\n'
    · simp [splitLines, h]
    · rw [splitLines, if_neg h]
      cases hs : splitLines rest with
      | nil => simp
      | cons l ls => simp

theorem splitLines_length : ∀ (l : List Char),
    (splitLines l).length = l.count '\n' + 1
  | [] => by simp [splitLines]
  | c :: rest => by
    by_cases h : c = '\n'
    · rw [splitLines, if_pos h]
      simp only [List.length_cons, splitLines_length rest]
      rw [List.count_cons]
      simp [h]
    · rw [splitLines, if_neg h]
      have hne := splitLines_ne_nil rest
      have hlen := splitLines_length rest
      cases hs : splitLines rest with
      | nil => exact absurd hs hne
      | cons l ls =>
        rw [hs] at hlen
        simp only [List.length_cons] at hlen ⊢
        rw [List.count_cons]
        simp only [beq_iff_eq]
        rw [if_neg h]
        omega

theorem no_newline_splitLines : ∀ (l : List Char), '\n' ∉ l → splitLines l = [l]
  | [] => by simp [splitLines]
  | c :: rest => by
    intro h
    have hc : c ≠ '\n' := fun hh => h (by simp [hh])
    rw [splitLines, if_neg hc, no_newline_splitLines rest (fun hh => h (by simp [hh]))]

theorem cutIdx_some (j : Nat) : cutIdx (some j) = j + 1 := rfl

theorem cutIdx_none : cutIdx none = 0 := rfl

theorem lastNewlineIdx_none_iff : ∀ (l : List Char),
    lastNewlineIdx l = none ↔ '\n' ∉ l
  | [] => by simp [lastNewlineIdx]
  | c :: rest => by
    rw [lastNewlineIdx]
    cases hr : lastNewlineIdx rest with
    | some j =>
      have hmem : '\n' ∈ rest := by
        by_contra hmem
        rw [(lastNewlineIdx_none_iff rest).mpr hmem] at hr
        exact Option.noConfusion hr
      simp [hmem]
    | none =>
      have hrest := (lastNewlineIdx_none_iff rest).mp hr
      by_cases hc : c = '\n'
      · simp [hc]
      · have hc' : ¬ ('\n' = c) := fun hh => hc hh.symm
        simp [hc, hc', hrest]

theorem lastNewlineIdx_lt : ∀ (l : List Char) (j : Nat),
    lastNewlineIdx l = some j → j < l.length
  | [] => by simp [lastNewlineIdx]
  | c :: rest => by
    intro j h
    rw [lastNewlineIdx] at h
    cases hr : lastNewlineIdx rest with
    | some j' =>
      rw [hr] at h
      injection h with h
      have := lastNewlineIdx_lt rest j' hr
      simp only [List.length_cons]
      omega
    | none =>
      rw [hr] at h
      by_cases hc : c = '\n'
      · rw [if_pos hc] at h
        injection h with h
        simp only [List.length_cons]
        omega
      · rw [if_neg hc] at h
        exact Option.noConfusion h

theorem getLastD_irrel {α : Type} : ∀ (L : List α), L ≠ [] → ∀ d d' : α,
    L.getLastD d = L.getLastD d'
  | [], h, _, _ => absurd rfl h
  | _ :: _, _, _, _ => by rw [List.getLastD_cons, List.getLastD_cons]

theorem splitLines_lastLen : ∀ (l : List Char),
    ((splitLines l).getLastD []).length = l.length - cutIdx (lastNewlineIdx l)
  | [] => by simp [splitLines, lastNewlineIdx, cutIdx]
  | c :: rest => by
    have ih := splitLines_lastLen rest
    by_cases hc : c = '\n'
    · subst hc
      have hsplit : splitLines ('\n' :: rest) = [] :: splitLines rest := by
        rw [splitLines, if_pos rfl]
      cases hr : lastNewlineIdx rest with
      | some j =>
        have hidx : lastNewlineIdx ('\n' :: rest) = some (j + 1) := by
          rw [lastNewlineIdx, hr]
        have hj := lastNewlineIdx_lt rest j hr
        rw [hsplit, hidx, cutIdx_some, List.getLastD_cons]
        rw [hr, cutIdx_some] at ih
        rw [ih]
        simp only [List.length_cons]
        omega
      | none =>
        have hidx : lastNewlineIdx ('\n' :: rest) = some 0 := by
          rw [lastNewlineIdx, hr]
          simp
        rw [hsplit, hidx, cutIdx_some, List.getLastD_cons]
        rw [hr, cutIdx_none] at ih
        rw [ih]
        simp only [List.length_cons]
        omega
    · have hne := splitLines_ne_nil rest
      have hlen := splitLines_length rest
      cases hs : splitLines rest with
      | nil => exact absurd hs hne
      | cons l2 ls =>
        cases ls with
        | nil =>
          rw [hs] at hlen
          have hcount : rest.count '\n' = 0 := by
            simp at hlen
            omega
          have hnonl : '\n' ∉ rest := List.count_eq_zero.mp hcount
          have hl2 : l2 = rest := by
            have := no_newline_splitLines rest hnonl
            rw [hs] at this
            injection this
          have hsplit : splitLines (c :: rest) = [c :: l2] := by
            rw [splitLines, if_neg hc, hs]
          have hidx : lastNewlineIdx (c :: rest) = none := by
            rw [lastNewlineIdx, (lastNewlineIdx_none_iff rest).mpr hnonl]
            exact if_neg hc
          rw [hsplit, hidx, cutIdx_none]
          simp [hl2]
        | cons l3 ls3 =>
          rw [hs] at hlen
          have hcount : 0 < rest.count '\n' := by
            simp only [List.length_cons] at hlen
            omega
          have hmem : '\n' ∈ rest := by
            by_contra hmem
            rw [List.count_eq_zero.mpr hmem] at hcount
            omega
          obtain ⟨j, hr⟩ : ∃ j, lastNewlineIdx rest = some j := by
            cases hrr : lastNewlineIdx rest with
            | none => exact absurd ((lastNewlineIdx_none_iff rest).mp hrr) (by simp [hmem])
            | some j => exact ⟨j, rfl⟩
          have hj := lastNewlineIdx_lt rest j hr
          have hsplit : splitLines (c :: rest) = (c :: l2) :: l3 :: ls3 := by
            rw [splitLines, if_neg hc, hs]
          have hidx : lastNewlineIdx (c :: rest) = some (j + 1) := by
            rw [lastNewlineIdx, hr]
          rw [hs, hr, cutIdx_some, List.getLastD_cons] at ih
          rw [hsplit, hidx, cutIdx_some, List.getLastD_cons]
          rw [getLastD_irrel (l3 :: ls3) (by simp) (c :: l2) l2]
          rw [ih]
          simp only [List.length_cons]
          omega

theorem locate_eq_spec (input : String) (off : Nat) (hoff : off ≤ input.data.length) :
    locate input off = (specLine input.data off, specColumn input.data off) := by
  have htake : (input.data.take off).length = off := by
    rw [List.length_take]
    omega
  have h1 : (locate input off).1 = specLine input.data off := by
    show (splitLines (input.data.take off)).length = _
    rw [splitLines_length, specLine]
  have h2 : (locate input off).2 = specColumn input.data off := by
    show ((splitLines (input.data.take off)).getLastD []).length + 1 = _
    rw [splitLines_lastLen, htake]
    cases hr : lastNewlineIdx (input.data.take off) with
    | some j =>
      have hspec : specColumn input.data off = off - j := by
        simp [specColumn, hr]
      have hj := lastNewlineIdx_lt _ j hr
      rw [htake] at hj
      rw [hspec, cutIdx_some]
      omega
    | none =>
      have hspec : specColumn input.data off = off + 1 := by
        simp [specColumn, hr]
      rw [hspec, cutIdx_none]
      omega
  calc locate input off = ((locate input off).1, (locate input off).2) := rfl
    _ = (specLine input.data off, specColumn input.data off) := by rw [h1, h2]

theorem extractPosition_of_no_match : ∀ (l : List Char),
    hasPositionMatch l = false → extractPosition l = 0
  | [] => fun _ => rfl
  | c :: rest => by
    intro h
    rw [hasPositionMatch, Bool.or_eq_false_iff] at h
    rw [extractPosition]
    cases hm : matchPositionHere (c :: rest) with
    | some n =>
      rw [hm] at h
      simp at h
    | none => exact extractPosition_of_no_match rest h.2

/-! ## Blank input -/

theorem jsTrim_all_space {l : List Char} (h : ∀ c ∈ l, isJsSpace c = true) :
    jsTrim l = [] := by
  have h1 : l.dropWhile isJsSpace = [] := List.dropWhile_eq_nil_iff.mpr h
  rw [jsTrim, h1]
  rfl

/-! ## Unfolding lemmas for the tree builder -/

theorem build_null (exp : Finset String) (key path : String) :
    buildJsonTree exp .null key path
      = [⟨key, .null, "null", calculateSize .null, mkPath path key, none⟩] := by
  rw [buildJsonTree]

theorem build_bool (exp : Finset String) (b : Bool) (key path : String) :
    buildJsonTree exp (.bool b) key path
      = [⟨key, .bool b, "boolean", calculateSize (.bool b), mkPath path key, none⟩] := by
  rw [buildJsonTree]

theorem build_num (exp : Finset String) (n : Int) (key path : String) :
    buildJsonTree exp (.num n) key path
      = [⟨key, .num n, "number", calculateSize (.num n), mkPath path key, none⟩] := by
  rw [buildJsonTree]

theorem build_str (exp : Finset String) (s : String) (key path : String) :
    buildJsonTree exp (.str s) key path
      = [⟨key, .str s, "string", calculateSize (.str s), mkPath path key, none⟩] := by
  rw [buildJsonTree]

theorem build_arr_mem (exp : Finset String) (xs : JArr) (key path : String)
    (h : mkPath path key ∈ exp) :
    buildJsonTree exp (.arr xs) key path
      = ⟨if key = "root" then "root" else key ++ " [" ++ natToString xs.length ++ "]",
          .arr xs, "array", calculateSize (.arr xs), mkPath path key, some true⟩
        :: buildArrChildren exp xs 0 (mkPath path key) := by
  rw [buildJsonTree]
  simp [h]

theorem build_arr_notmem (exp : Finset String) (xs : JArr) (key path : String)
    (h : mkPath path key ∉ exp) :
    buildJsonTree exp (.arr xs) key path
      = [⟨if key = "root" then "root" else key ++ " [" ++ natToString xs.length ++ "]",
          .arr xs, "array", calculateSize (.arr xs), mkPath path key, some false⟩] := by
  rw [buildJsonTree]
  simp [h]

theorem build_obj_mem (exp : Finset String) (kvs : JObj) (key path : String)
    (h : mkPath path key ∈ exp) :
    buildJsonTree exp (.obj kvs) key path
      = ⟨if key = "root" then "root" else key ++ " \x7b" ++ natToString kvs.length ++ "\x7d",
          .obj kvs, "object", calculateSize (.obj kvs), mkPath path key, some true⟩
        :: buildObjChildren exp kvs (mkPath path key) := by
  rw [buildJsonTree]
  simp [h]

theorem build_obj_notmem (exp : Finset String) (kvs : JObj) (key path : String)
    (h : mkPath path key ∉ exp) :
    buildJsonTree exp (.obj kvs) key path
      = [⟨if key = "root" then "root" else key ++ " \x7b" ++ natToString kvs.length ++ "\x7d",
          .obj kvs, "object", calculateSize (.obj kvs), mkPath path key, some false⟩] := by
  rw [buildJsonTree]
  simp [h]

theorem buildArr_eq_blocks (exp : Finset String) : ∀ (xs : JArr) (i : Nat) (cp : String),
    buildArrChildren exp xs i cp
      = ((List.enumFrom i xs.toList).map fun q =>
          buildJsonTree exp q.2 (idxKey q.1) cp).flatten
  | .nil, i, cp => by simp [buildArrChildren, JArr.toList]
  | .cons x rest, i, cp => by
    rw [buildArrChildren, buildArr_eq_blocks exp rest (i + 1) cp]
    simp [JArr.toList, List.enumFrom]

theorem buildObj_eq_blocks (exp : Finset String) : ∀ (kvs : JObj) (cp : String),
    buildObjChildren exp kvs cp
      = (kvs.toList.map fun kv => buildJsonTree exp kv.2 kv.1 cp).flatten
  | .nil, cp => by simp [buildObjChildren, JObj.toList]
  | .cons k v rest, cp => by
    rw [buildObjChildren, buildObj_eq_blocks exp rest cp]
    simp [JObj.toList]

theorem build_structure (exp : Finset String) (obj : JValue) (key path : String) :
    ∃ hd : JsonNode,
      buildJsonTree exp obj key path
        = hd :: (if isContainer obj = true ∧ mkPath path key ∈ exp then
            (childBlocks exp obj (mkPath path key)).flatten else [])
      ∧ hd.value = obj ∧ hd.path = mkPath path key ∧ hd.size = calculateSize obj := by
  cases obj with
  | null =>
    refine ⟨⟨key, .null, "null", calculateSize .null, mkPath path key, none⟩,
      ?_, rfl, rfl, rfl⟩
    rw [build_null]
    simp [isContainer]
  | bool b =>
    refine ⟨⟨key, .bool b, "boolean", calculateSize (.bool b), mkPath path key, none⟩,
      ?_, rfl, rfl, rfl⟩
    rw [build_bool]
    simp [isContainer]
  | num n =>
    refine ⟨⟨key, .num n, "number", calculateSize (.num n), mkPath path key, none⟩,
      ?_, rfl, rfl, rfl⟩
    rw [build_num]
    simp [isContainer]
  | str s =>
    refine ⟨⟨key, .str s, "string", calculateSize (.str s), mkPath path key, none⟩,
      ?_, rfl, rfl, rfl⟩
    rw [build_str]
    simp [isContainer]
  | arr xs =>
    by_cases h : mkPath path key ∈ exp
    · refine ⟨⟨if key = "root" then "root" else key ++ " [" ++ natToString xs.length ++ "]",
        .arr xs, "array", calculateSize (.arr xs), mkPath path key, some true⟩,
        ?_, rfl, rfl, rfl⟩
      rw [build_arr_mem exp xs key path h, buildArr_eq_blocks]
      have hcond : isContainer (JValue.arr xs) = true ∧ mkPath path key ∈ exp := ⟨rfl, h⟩
      rw [if_pos hcond]
      simp only [childBlocks]
    · refine ⟨⟨if key = "root" then "root" else key ++ " [" ++ natToString xs.length ++ "]",
        .arr xs, "array", calculateSize (.arr xs), mkPath path key, some false⟩,
        ?_, rfl, rfl, rfl⟩
      rw [build_arr_notmem exp xs key path h]
      have hcond : ¬ (isContainer (JValue.arr xs) = true ∧ mkPath path key ∈ exp) :=
        fun hh => h hh.2
      rw [if_neg hcond]
  | obj kvs =>
    by_cases h : mkPath path key ∈ exp
    · refine ⟨⟨if key = "root" then "root" else key ++ " \x7b" ++ natToString kvs.length ++ "\x7d",
        .obj kvs, "object", calculateSize (.obj kvs), mkPath path key, some true⟩,
        ?_, rfl, rfl, rfl⟩
      rw [build_obj_mem exp kvs key path h, buildObj_eq_blocks]
      have hcond : isContainer (JValue.obj kvs) = true ∧ mkPath path key ∈ exp := ⟨rfl, h⟩
      rw [if_pos hcond]
      simp only [childBlocks]
    · refine ⟨⟨if key = "root" then "root" else key ++ " \x7b" ++ natToString kvs.length ++ "\x7d",
        .obj kvs, "object", calculateSize (.obj kvs), mkPath path key, some false⟩,
        ?_, rfl, rfl, rfl⟩
      rw [build_obj_notmem exp kvs key path h]
      have hcond : ¬ (isContainer (JValue.obj kvs) = true ∧ mkPath path key ∈ exp) :=
        fun hh => h hh.2
      rw [if_neg hcond]

/-! ## Path shape: every emitted path is the current path or a dotted
extension of it -/

mutual

theorem pathShape : ∀ (exp : Finset String) (obj : JValue) (key path : String),
    mkPath path key ≠ "" → ∀ n ∈ buildJsonTree exp obj key path,
      n.path = mkPath path key ∨ ∃ r, n.path = mkPath path key ++ "." ++ r
  | exp, .null, key, path, _ => by
    intro n hn
    rw [build_null] at hn
    simp at hn
    subst hn
    exact Or.inl rfl
  | exp, .bool b, key, path, _ => by
    intro n hn
    rw [build_bool] at hn
    simp at hn
    subst hn
    exact Or.inl rfl
  | exp, .num n0, key, path, _ => by
    intro n hn
    rw [build_num] at hn
    simp at hn
    subst hn
    exact Or.inl rfl
  | exp, .str s, key, path, _ => by
    intro n hn
    rw [build_str] at hn
    simp at hn
    subst hn
    exact Or.inl rfl
  | exp, .arr xs, key, path, hne => by
    intro n hn
    by_cases h : mkPath path key ∈ exp
    · rw [build_arr_mem exp xs key path h] at hn
      rcases List.mem_cons.mp hn with rfl | hn
      · exact Or.inl rfl
      · exact Or.inr (pathShapeArr exp xs 0 (mkPath path key) hne n hn)
    · rw [build_arr_notmem exp xs key path h] at hn
      simp at hn
      subst hn
      exact Or.inl rfl
  | exp, .obj kvs, key, path, hne => by
    intro n hn
    by_cases h : mkPath path key ∈ exp
    · rw [build_obj_mem exp kvs key path h] at hn
      rcases List.mem_cons.mp hn with rfl | hn
      · exact Or.inl rfl
      · exact Or.inr (pathShapeObj exp kvs (mkPath path key) hne n hn)
    · rw [build_obj_notmem exp kvs key path h] at hn
      simp at hn
      subst hn
      exact Or.inl rfl

theorem pathShapeArr : ∀ (exp : Finset String) (xs : JArr) (i : Nat) (cp : String),
    cp ≠ "" → ∀ n ∈ buildArrChildren exp xs i cp, ∃ r, n.path = cp ++ "." ++ r
  | exp, .nil, i, cp, _ => by simp [buildArrChildren]
  | exp, .cons x rest, i, cp, hcp => by
    intro n hn
    rw [buildArrChildren] at hn
    rcases List.mem_append.mp hn with hmem | hmem
    · have h1 := pathShape exp x (idxKey i) cp (mkPath_ne_empty (Or.inl hcp)) n hmem
      rw [mkPath_of_ne (idxKey i) hcp] at h1
      rcases h1 with h1 | ⟨r, h1⟩
      · exact ⟨idxKey i, h1⟩
      · refine ⟨idxKey i ++ ("." ++ r), ?_⟩
        rw [h1]
        simp [String.append_assoc]
    · exact pathShapeArr exp rest (i + 1) cp hcp n hmem

theorem pathShapeObj : ∀ (exp : Finset String) (kvs : JObj) (cp : String),
    cp ≠ "" → ∀ n ∈ buildObjChildren exp kvs cp, ∃ r, n.path = cp ++ "." ++ r
  | exp, .nil, cp, _ => by simp [buildObjChildren]
  | exp, .cons k v rest, cp, hcp => by
    intro n hn
    rw [buildObjChildren] at hn
    rcases List.mem_append.mp hn with hmem | hmem
    · have h1 := pathShape exp v k cp (mkPath_ne_empty (Or.inl hcp)) n hmem
      rw [mkPath_of_ne k hcp] at h1
      rcases h1 with h1 | ⟨r, h1⟩
      · exact ⟨k, h1⟩
      · refine ⟨k ++ ("." ++ r), ?_⟩
        rw [h1]
        simp [String.append_assoc]
    · exact pathShapeObj exp rest cp hcp n hmem

end

/-! ## Size: every emitted node stores the size of its own value -/

mutual

theorem sizeShape : ∀ (exp : Finset String) (obj : JValue) (key path : String),
    ∀ n ∈ buildJsonTree exp obj key path, n.size = calculateSize n.value
  | exp, .null, key, path => by
    intro n hn
    rw [build_null] at hn
    simp at hn
    subst hn
    rfl
  | exp, .bool b, key, path => by
    intro n hn
    rw [build_bool] at hn
    simp at hn
    subst hn
    rfl
  | exp, .num n0, key, path => by
    intro n hn
    rw [build_num] at hn
    simp at hn
    subst hn
    rfl
  | exp, .str s, key, path => by
    intro n hn
    rw [build_str] at hn
    simp at hn
    subst hn
    rfl
  | exp, .arr xs, key, path => by
    intro n hn
    by_cases h : mkPath path key ∈ exp
    · rw [build_arr_mem exp xs key path h] at hn
      rcases List.mem_cons.mp hn with rfl | hn
      · rfl
      · exact sizeShapeArr exp xs 0 (mkPath path key) n hn
    · rw [build_arr_notmem exp xs key path h] at hn
      simp at hn
      subst hn
      rfl
  | exp, .obj kvs, key, path => by
    intro n hn
    by_cases h : mkPath path key ∈ exp
    · rw [build_obj_mem exp kvs key path h] at hn
      rcases List.mem_cons.mp hn with rfl | hn
      · rfl
      · exact sizeShapeObj exp kvs (mkPath path key) n hn
    · rw [build_obj_notmem exp kvs key path h] at hn
      simp at hn
      subst hn
      rfl

theorem sizeShapeArr : ∀ (exp : Finset String) (xs : JArr) (i : Nat) (cp : String),
    ∀ n ∈ buildArrChildren exp xs i cp, n.size = calculateSize n.value
  | exp, .nil, i, cp => by simp [buildArrChildren]
  | exp, .cons x rest, i, cp => by
    intro n hn
    rw [buildArrChildren] at hn
    rcases List.mem_append.mp hn with hmem | hmem
    · exact sizeShape exp x (idxKey i) cp n hmem
    · exact sizeShapeArr exp rest (i + 1) cp n hmem

theorem sizeShapeObj : ∀ (exp : Finset String) (kvs : JObj) (cp : String),
    ∀ n ∈ buildObjChildren exp kvs cp, n.size = calculateSize n.value
  | exp, .nil, cp => by simp [buildObjChildren]
  | exp, .cons k v rest, cp => by
    intro n hn
    rw [buildObjChildren] at hn
    rcases List.mem_append.mp hn with hmem | hmem
    · exact sizeShape exp v k cp n hmem
    · exact sizeShapeObj exp rest cp n hmem

end

/-! ## Uniqueness of paths under dot-free, duplicate-free keys -/

theorem goodObj_keyMem_dotFree : ∀ (kvs : JObj) (k : String),
    goodObj kvs = true → keyMem k kvs = true → dotFree k = true
  | .nil, k, _, h => by simp [keyMem] at h
  | .cons k0 v rest, k, hg, hm => by
    rw [goodObj] at hg
    simp only [Bool.and_eq_true] at hg
    obtain ⟨⟨⟨hdf, _⟩, _⟩, hgr⟩ := hg
    rw [keyMem, Bool.or_eq_true] at hm
    rcases hm with hm | hm
    · have : k = k0 := of_decide_eq_true hm
      rw [this]
      exact hdf
    · exact goodObj_keyMem_dotFree rest k hgr hm

theorem keyExt_of_shape {exp : Finset String} {x : JValue} {k cp : String} (hcp : cp ≠ "")
    {n : JsonNode} (hn : n ∈ buildJsonTree exp x k cp) : KeyExt cp k n.path := by
  have hs := pathShape exp x k cp (mkPath_ne_empty (Or.inl hcp)) n hn
  rw [mkPath_of_ne k hcp] at hs
  rcases hs with h | ⟨r, h⟩
  · exact ⟨"", Or.inl rfl, by rw [String.append_empty]; exact h⟩
  · refine ⟨"." ++ r, Or.inr ⟨r, rfl⟩, ?_⟩
    rw [h]
    simp [String.append_assoc]

mutual

theorem nodupPaths : ∀ (exp : Finset String) (obj : JValue) (key path : String),
    goodVal obj = true → mkPath path key ≠ "" →
    ((buildJsonTree exp obj key path).map JsonNode.path).Nodup
  | exp, .null, key, path, _, _ => by rw [build_null]; simp
  | exp, .bool b, key, path, _, _ => by rw [build_bool]; simp
  | exp, .num n0, key, path, _, _ => by rw [build_num]; simp
  | exp, .str s, key, path, _, _ => by rw [build_str]; simp
  | exp, .arr xs, key, path, hg, hne => by
    rw [goodVal] at hg
    by_cases h : mkPath path key ∈ exp
    · rw [build_arr_mem exp xs key path h, List.map_cons, List.nodup_cons]
      constructor
      · intro hmem
        obtain ⟨n, hn, hp⟩ := List.mem_map.mp hmem
        obtain ⟨r, hr⟩ := pathShapeArr exp xs 0 (mkPath path key) hne n hn
        rw [hp] at hr
        exact ne_self_append_dot (mkPath path key) r hr
      · exact (nodupArr exp xs 0 (mkPath path key) hg hne).1
    · rw [build_arr_notmem exp xs key path h]
      simp
  | exp, .obj kvs, key, path, hg, hne => by
    rw [goodVal] at hg
    by_cases h : mkPath path key ∈ exp
    · rw [build_obj_mem exp kvs key path h, List.map_cons, List.nodup_cons]
      constructor
      · intro hmem
        obtain ⟨n, hn, hp⟩ := List.mem_map.mp hmem
        obtain ⟨r, hr⟩ := pathShapeObj exp kvs (mkPath path key) hne n hn
        rw [hp] at hr
        exact ne_self_append_dot (mkPath path key) r hr
      · exact (nodupObj exp kvs (mkPath path key) hg hne).1
    · rw [build_obj_notmem exp kvs key path h]
      simp

theorem nodupArr : ∀ (exp : Finset String) (xs : JArr) (i : Nat) (cp : String),
    goodArr xs = true → cp ≠ "" →
    ((buildArrChildren exp xs i cp).map JsonNode.path).Nodup
    ∧ ∀ p ∈ (buildArrChildren exp xs i cp).map JsonNode.path,
        ∃ j, i ≤ j ∧ KeyExt cp (idxKey j) p
  | exp, .nil, i, cp, _, _ => by simp [buildArrChildren]
  | exp, .cons x rest, i, cp, hg, hcp => by
    rw [goodArr, Bool.and_eq_true] at hg
    obtain ⟨hgx, hgr⟩ := hg
    obtain ⟨ihN, ihF⟩ := nodupArr exp rest (i + 1) cp hgr hcp
    rw [buildArrChildren, List.map_append]
    have hxN := nodupPaths exp x (idxKey i) cp hgx (mkPath_ne_empty (Or.inl hcp))
    have hxF : ∀ p ∈ (buildJsonTree exp x (idxKey i) cp).map JsonNode.path,
        KeyExt cp (idxKey i) p := by
      intro p hp
      obtain ⟨n, hn, rfl⟩ := List.mem_map.mp hp
      exact keyExt_of_shape hcp hn
    constructor
    · rw [List.nodup_append]
      refine ⟨hxN, ihN, ?_⟩
      intro p hp1 hp2
      obtain ⟨j, hij, hK2⟩ := ihF p hp2
      have hK1 := hxF p hp1
      have hkeq := KeyExt.eq_key (idxKey_dotFree i) (idxKey_dotFree j) hK1 hK2
      have := idxKey_inj hkeq
      omega
    · intro p hp
      rcases List.mem_append.mp hp with hp | hp
      · exact ⟨i, le_refl i, hxF p hp⟩
      · obtain ⟨j, hij, hK⟩ := ihF p hp
        exact ⟨j, by omega, hK⟩

theorem nodupObj : ∀ (exp : Finset String) (kvs : JObj) (cp : String),
    goodObj kvs = true → cp ≠ "" →
    ((buildObjChildren exp kvs cp).map JsonNode.path).Nodup
    ∧ ∀ p ∈ (buildObjChildren exp kvs cp).map JsonNode.path,
        ∃ k, keyMem k kvs = true ∧ KeyExt cp k p
  | exp, .nil, cp, _, _ => by simp [buildObjChildren]
  | exp, .cons k0 v rest, cp, hg, hcp => by
    rw [goodObj] at hg
    simp only [Bool.and_eq_true] at hg
    obtain ⟨⟨⟨hdf, hnm⟩, hgv⟩, hgr⟩ := hg
    rw [Bool.not_eq_true'] at hnm
    obtain ⟨ihN, ihF⟩ := nodupObj exp rest cp hgr hcp
    rw [buildObjChildren, List.map_append]
    have hvN := nodupPaths exp v k0 cp hgv (mkPath_ne_empty (Or.inl hcp))
    have hvF : ∀ p ∈ (buildJsonTree exp v k0 cp).map JsonNode.path, KeyExt cp k0 p := by
      intro p hp
      obtain ⟨n, hn, rfl⟩ := List.mem_map.mp hp
      exact keyExt_of_shape hcp hn
    constructor
    · rw [List.nodup_append]
      refine ⟨hvN, ihN, ?_⟩
      intro p hp1 hp2
      obtain ⟨k', hk'm, hK2⟩ := ihF p hp2
      have hK1 := hvF p hp1
      have hdf' := goodObj_keyMem_dotFree rest k' hgr hk'm
      have heq := KeyExt.eq_key hdf hdf' hK1 hK2
      rw [← heq, hnm] at hk'm
      exact Bool.noConfusion hk'm
    · intro p hp
      rcases List.mem_append.mp hp with hp | hp
      · refine ⟨k0, ?_, hvF p hp⟩
        rw [keyMem]
        simp
      · obtain ⟨k', hm, hK⟩ := ihF p hp
        refine ⟨k', ?_, hK⟩
        rw [keyMem]
        simp [hm]

end

/-! ## Shared helper: every node of the child area extends the parent path -/

theorem tailExt (exp : Finset String) (obj : JValue) (key path : String)
    (hne : mkPath path key ≠ "") :
    ∀ n ∈ (if isContainer obj = true ∧ mkPath path key ∈ exp then
        (childBlocks exp obj (mkPath path key)).flatten else []),
      ∃ r, n.path = mkPath path key ++ "." ++ r := by
  intro n hn
  by_cases hcond : isContainer obj = true ∧ mkPath path key ∈ exp
  · rw [if_pos hcond] at hn
    obtain ⟨hcont, _⟩ := hcond
    cases obj with
    | arr xs =>
      simp only [childBlocks] at hn
      rw [← buildArr_eq_blocks] at hn
      exact pathShapeArr exp xs 0 (mkPath path key) hne n hn
    | obj kvs =>
      simp only [childBlocks] at hn
      rw [← buildObj_eq_blocks] at hn
      exact pathShapeObj exp kvs (mkPath path key) hne n hn
    | null => simp [isContainer] at hcont
    | bool b => simp [isContainer] at hcont
    | num n0 => simp [isContainer] at hcont
    | str s => simp [isContainer] at hcont
  · rw [if_neg hcond] at hn
    exact absurd hn (List.not_mem_nil n)

/-! ## The claims -/

/-- C1: `buildJsonTree` always emits exactly one header node for the value
itself (first in the output, carrying the value and the current path),
followed by the full recursive results of the children exactly when the
value is a container whose current path is in the expanded set — array
elements in ascending index order, object entries in insertion order —
and every non-header node's path strictly extends the header's path, so
the flat output is in pre-order. -/
theorem buildTree_preorder (exp : Finset String) (obj : JValue) (key path : String) :
    ∃ hd tl, buildJsonTree exp obj key path = hd :: tl
      ∧ hd.value = obj ∧ hd.path = mkPath path key
      ∧ tl = (if isContainer obj = true ∧ mkPath path key ∈ exp then
          (childBlocks exp obj (mkPath path key)).flatten else [])
      ∧ (mkPath path key ≠ "" →
          ∀ n ∈ tl, ∃ r, n.path = mkPath path key ++ "." ++ r) := by
  obtain ⟨hd, heq, hv, hp, _⟩ := build_structure exp obj key path
  refine ⟨hd, _, heq, hv, hp, rfl, ?_⟩
  intro hne n hn
  exact tailExt exp obj key path hne n hn

/-- Witness for C1 at the nested sample value: the first emitted node is
the header for the whole value, at path `root`. -/
theorem buildTree_preorder_witness :
    (buildJsonTree {"root"} sampleNested "root" "").head?.map JsonNode.path
      = some "root" := by
  obtain ⟨hd, tl, heq, _, hp, _, _⟩ := buildTree_preorder {"root"} sampleNested "root" ""
  rw [heq]
  simp only [List.head?_cons, Option.map_some']
  rw [hp]
  rfl

/-- C2: every emitted node's recorded size is the UTF-8 byte length of the
minified serialization of that node's own value, and the document-total
size figure is the same measure applied to the whole parsed value. -/
theorem nodeSize_roundtrip (exp : Finset String) (obj : JValue) (key path : String) :
    (∀ n ∈ buildJsonTree exp obj key path,
      n.size = (serialize n.value).utf8ByteSize)
    ∧ ∀ v : JValue, documentTotalSize v = (serialize v).utf8ByteSize := by
  constructor
  · intro n hn
    exact sizeShape exp obj key path n hn
  · intro v
    rfl

/-- Witness for C2: the size law evaluated at a concrete emitted node. -/
theorem nodeSize_roundtrip_witness :
    (⟨"root", JValue.null, "null", calculateSize JValue.null, "root", none⟩ : JsonNode).size
      = (serialize JValue.null).utf8ByteSize := by
  have h := (nodeSize_roundtrip ∅ JValue.null "root" "").1
  exact h _ (by rw [build_null]; exact List.mem_singleton.mpr rfl)

/-- C3: for the character offset extracted from a failing parse's message
(0 when the `position (\d+)` pattern is missing or unmatched), as long as
the offset is at most the text length (it may equal it), the constructed
`JsonError` has `line` = 1 + the number of newlines in `text[0:offset]`
and `column` = offset minus the index of the last newline before the
offset (1-based within the line), and the computation is total. -/
theorem errorLocator_correct (input msg : String)
    (hoff : extractPosition msg.data ≤ input.data.length) :
    (mkJsonError input msg).line = specLine input.data (extractPosition msg.data)
    ∧ (mkJsonError input msg).column = specColumn input.data (extractPosition msg.data)
    ∧ (mkJsonError input msg).position = extractPosition msg.data
    ∧ (hasPositionMatch msg.data = false → (mkJsonError input msg).position = 0) := by
  have h := locate_eq_spec input (extractPosition msg.data) hoff
  refine ⟨?_, ?_, rfl, ?_⟩
  · show (locate input (extractPosition msg.data)).1 = _
    rw [h]
  · show (locate input (extractPosition msg.data)).2 = _
    rw [h]
  · intro hnm
    show extractPosition msg.data = 0
    exact extractPosition_of_no_match msg.data hnm

/-- Witness for C3: an error whose reported offset equals the text length
(error at end of input) locates to line 1, column 7. -/
theorem errorLocator_correct_witness :
    (mkJsonError "\x7b\"a\": " "Unexpected end of JSON input at position 6").line = 1
    ∧ (mkJsonError "\x7b\"a\": " "Unexpected end of JSON input at position 6").column = 7 := by
  have h := errorLocator_correct "\x7b\"a\": " "Unexpected end of JSON input at position 6"
    (by decide)
  exact ⟨h.1.trans (by decide), h.2.1.trans (by decide)⟩

/-- C4 counterexample: for the valid JSON value `{"a.b":1,"a":{"b":2}}`
(whose first key contains a dot) with `root` and `root.a` expanded, the
build pass emits the path `root.a.b` twice, so paths are not unique. -/
theorem path_unique_cex :
    ¬ (((buildJsonTree {"root", "root.a"} dottedSample "root" "").map
        JsonNode.path).Nodup) := by decide

/-- C4 (amended): provided every object in the value has pairwise
distinct keys and no key contains a `.` character, all paths of one build
pass are unique; and — unconditionally — every node emitted after a
header extends that header's path by a `.`, so a parent's path is a
strict prefix of each of its descendants' paths. -/
theorem path_unique_amended (exp : Finset String) (obj : JValue)
    (h : goodVal obj = true) :
    ((buildJsonTree exp obj "root" "").map JsonNode.path).Nodup
    ∧ ∀ (key path : String), mkPath path key ≠ "" →
        ∀ n ∈ (buildJsonTree exp obj key path).tail,
          ∃ r, n.path = mkPath path key ++ "." ++ r := by
  constructor
  · exact nodupPaths exp obj "root" "" h (by decide)
  · intro key path hne n hn
    obtain ⟨hd, heq, _, _, _⟩ := build_structure exp obj key path
    rw [heq] at hn
    simp only [List.tail_cons] at hn
    exact tailExt exp obj key path hne n hn

/-- Witness for C4 (amended) on the nested sample value, whose keys are
dot-free and duplicate-free. -/
theorem path_unique_amended_witness :
    goodVal sampleNested = true
    ∧ ((buildJsonTree {"root"} sampleNested "root" "").map JsonNode.path).Nodup :=
  ⟨by decide, (path_unique_amended {"root"} sampleNested (by decide)).1⟩

/-- C5: empty or whitespace-only input resets both the parsed-value and
the error state (the neutral third state); no `SyntaxError` is reported. -/
theorem blankInput_neutral (p : String → Except String JValue) (input : String)
    (s : AppState) (h : ∀ c ∈ input.data, isJsSpace c = true) :
    (parseStep p input s).parsedJson = .null
    ∧ (parseStep p input s).jsonError = none := by
  have ht := jsTrim_all_space h
  rw [parseStep, if_pos ht]
  exact ⟨rfl, rfl⟩

/-- Witness for C5: a whitespace-only input in the initial state. -/
theorem blankInput_neutral_witness :
    (parseStep rawParseZero " \n\t " initState).parsedJson = JValue.null
    ∧ (parseStep rawParseZero " \n\t " initState).jsonError = none :=
  blankInput_neutral rawParseZero " \n\t " initState (by decide)

/-- C6: after any parse, at most one of the parsed-value state and the
error state is set, and both resulting states are independent of the
prior state — a successful parse unconditionally clears any prior error
and a failing parse unconditionally clears any prior value. -/
theorem parse_mutual_exclusion (p : String → Except String JValue) (input : String)
    (s t : AppState) :
    ((parseStep p input s).parsedJson = .null ∨ (parseStep p input s).jsonError = none)
    ∧ (parseStep p input s).parsedJson = (parseStep p input t).parsedJson
    ∧ (parseStep p input s).jsonError = (parseStep p input t).jsonError := by
  rw [parseStep, parseStep]
  by_cases h : jsTrim input.data = []
  · rw [if_pos h, if_pos h]
    exact ⟨Or.inl rfl, rfl, rfl⟩
  · rw [if_neg h, if_neg h]
    cases hp : p input with
    | ok v => exact ⟨Or.inr rfl, rfl, rfl⟩
    | error msg => exact ⟨Or.inl rfl, rfl, rfl⟩

/-- C7 counterexample: a container built with the key `root` gets the
plain display key `root`, with no child-count suffix. -/
theorem displayKey_cex :
    (buildJsonTree ∅ (.arr (.cons .null .nil)) "root" "").map JsonNode.key = ["root"]
    ∧ ("root" : String) ≠ "root [1]" := ⟨by decide, by decide⟩

/-- C7 (amended): a container whose key is not `root` gets a display key
with the child-count suffix — `[n]` for arrays, `{n}` for objects; a
container whose key is `root` displays plain `root`; leaf values keep
their key unchanged and carry the language-native primitive type name as
their type tag. -/
theorem displayKey_amended (exp : Finset String) (key path : String)
    (hk : key ≠ "root") :
    (∀ xs : JArr, (buildJsonTree exp (.arr xs) key path).head?.map JsonNode.key
        = some (key ++ " [" ++ natToString xs.length ++ "]"))
    ∧ (∀ kvs : JObj, (buildJsonTree exp (.obj kvs) key path).head?.map JsonNode.key
        = some (key ++ " \x7b" ++ natToString kvs.length ++ "\x7d"))
    ∧ (∀ xs : JArr, (buildJsonTree exp (.arr xs) "root" path).head?.map JsonNode.key
        = some "root")
    ∧ (∀ kvs : JObj, (buildJsonTree exp (.obj kvs) "root" path).head?.map JsonNode.key
        = some "root")
    ∧ (∀ s : String, (buildJsonTree exp (.str s) key path).map
        (fun n => (n.key, n.type)) = [(key, "string")])
    ∧ (∀ n0 : Int, (buildJsonTree exp (.num n0) key path).map
        (fun n => (n.key, n.type)) = [(key, "number")])
    ∧ (∀ b : Bool, (buildJsonTree exp (.bool b) key path).map
        (fun n => (n.key, n.type)) = [(key, "boolean")])
    ∧ (buildJsonTree exp .null key path).map
        (fun n => (n.key, n.type)) = [(key, "null")] := by
  refine ⟨?_, ?_, ?_, ?_, ?_, ?_, ?_, ?_⟩
  · intro xs
    by_cases h : mkPath path key ∈ exp
    · rw [build_arr_mem exp xs key path h]
      simp [hk]
    · rw [build_arr_notmem exp xs key path h]
      simp [hk]
  · intro kvs
    by_cases h : mkPath path key ∈ exp
    · rw [build_obj_mem exp kvs key path h]
      simp [hk]
    · rw [build_obj_notmem exp kvs key path h]
      simp [hk]
  · intro xs
    by_cases h : mkPath path "root" ∈ exp
    · rw [build_arr_mem exp xs "root" path h]
      simp
    · rw [build_arr_notmem exp xs "root" path h]
      simp
  · intro kvs
    by_cases h : mkPath path "root" ∈ exp
    · rw [build_obj_mem exp kvs "root" path h]
      simp
    · rw [build_obj_notmem exp kvs "root" path h]
      simp
  · intro s
    rw [build_str]
    simp
  · intro n0
    rw [build_num]
    simp
  · intro b
    rw [build_bool]
    simp
  · rw [build_null]
    simp

/-- Witness for C7 (amended): an empty array under key `a` displays as
`a [0]`. -/
theorem displayKey_amended_witness :
    (buildJsonTree ∅ (.arr JArr.nil) "a" "root").head?.map JsonNode.key
      = some "a [0]" := by
  have h := (displayKey_amended ∅ "a" "root" (by decide)).1 JArr.nil
  exact h.trans (by decide)

/-- C8: toggling a path flips exactly that path's membership in the
expanded set and nothing else, so toggling twice restores the exact prior
set and hence the exact prior build output. -/
theorem toggle_involution (p : String) (s : Finset String) :
    toggleNode p (toggleNode p s) = s
    ∧ (p ∈ toggleNode p s ↔ p ∉ s)
    ∧ (∀ q, q ≠ p → (q ∈ toggleNode p s ↔ q ∈ s))
    ∧ (∀ (obj : JValue) (key path : String),
        buildJsonTree (toggleNode p (toggleNode p s)) obj key path
          = buildJsonTree s obj key path) := by
  have hinv : toggleNode p (toggleNode p s) = s := by
    by_cases h : p ∈ s
    · have h1 : toggleNode p s = s.erase p := by rw [toggleNode, if_pos h]
      rw [h1, toggleNode, if_neg (Finset.not_mem_erase p s), Finset.insert_erase h]
    · have h1 : toggleNode p s = insert p s := by rw [toggleNode, if_neg h]
      rw [h1, toggleNode, if_pos (Finset.mem_insert_self p s), Finset.erase_insert h]
  refine ⟨hinv, ?_, ?_, fun obj key path => by rw [hinv]⟩
  · rw [toggleNode]
    by_cases h : p ∈ s
    · rw [if_pos h]
      simp [Finset.mem_erase, h]
    · rw [if_neg h]
      simp [Finset.mem_insert, h]
  · intro q hq
    rw [toggleNode]
    by_cases h : p ∈ s
    · rw [if_pos h]
      simp [Finset.mem_erase, hq]
    · rw [if_neg h]
      simp [Finset.mem_insert, hq]

/-- Witness for C8: toggling `a` twice on `{root}` restores `{root}`,
and the untouched path `root` keeps its membership after one toggle. -/
theorem toggle_involution_witness :
    toggleNode "a" (toggleNode "a" ({"root"} : Finset String)) = {"root"}
    ∧ ("root" ∈ toggleNode "a" ({"root"} : Finset String)) := by
  have h := toggle_involution "a" ({"root"} : Finset String)
  exact ⟨h.1, (h.2.2.1 "root" (by decide)).mpr (by decide)⟩

/-- C9: the top-level `Items` figure is the array length for an array
root, the key count for an object root, and 1 for any non-container
root; on the nested sample document it is 3. -/
theorem itemCount_correct :
    (∀ xs : JArr, itemCount (.arr xs) = xs.length)
    ∧ (∀ kvs : JObj, itemCount (.obj kvs) = kvs.length)
    ∧ (∀ v : JValue, isContainer v = false → itemCount v = 1)
    ∧ itemCount sampleNested = 3 := by
  refine ⟨fun xs => rfl, fun kvs => rfl, ?_, by decide⟩
  intro v hv
  cases v with
  | arr xs => simp [isContainer] at hv
  | obj kvs => simp [isContainer] at hv
  | null => rfl
  | bool b => rfl
  | num n => rfl
  | str s => rfl

/-- Witness for C9: the sample document counts 3 top-level items and a
scalar root counts 1. -/
theorem itemCount_correct_witness :
    itemCount sampleNested = 3 ∧ itemCount JValue.null = 1 := by
  have h := itemCount_correct
  exact ⟨h.2.2.2, h.2.2.1 JValue.null rfl⟩

/-- The auto-expand effect never leaves the set empty while the stored
value is truthy. -/
theorem expandEffect_nonempty (s : AppState)
    (h : jsTruthy (expandEffect s).parsedJson = true) :
    (expandEffect s).expandedNodes ≠ ∅ := by
  rw [expandEffect] at *
  by_cases hc : jsTruthy s.parsedJson = true ∧ s.expandedNodes = ∅
  · rw [if_pos hc]
    simp
  · rw [if_neg hc] at *
    intro hemp
    exact hc ⟨h, hemp⟩

/-- C10 counterexample: parsing the valid JSON text `0` stores the parsed
value 0 with an empty expanded set, and the auto-expand effect does not
reset the set (the guard `parsedJson && …` tests JS truthiness, and 0 is
falsy), so a state with a parsed value present and an empty expanded set
is reachable. -/
theorem autoExpand_cex :
    (step rawParseZero (.setInput "0") initState).parsedJson = JValue.num 0
    ∧ (step rawParseZero (.setInput "0") initState).expandedNodes = ∅
    ∧ (step rawParseZero (.setInput "0") initState).jsonError = none :=
  ⟨rfl, rfl, rfl⟩

/-- C10 (amended): after any step, if the stored parsed value is truthy
the expanded set is non-empty — in particular collapsing the last
remaining expanded path of a truthy document immediately resets the set
to `{root}` — but a falsy parsed value (such as 0, false, the empty
string, or a parsed `null`) does not trigger the reset. -/
theorem autoExpand_truthy (p : String → Except String JValue) (s : AppState) :
    (∀ e : Event, jsTruthy ((step p e s).parsedJson) = true →
        (step p e s).expandedNodes ≠ ∅)
    ∧ (∀ q : String, jsTruthy s.parsedJson = true → s.expandedNodes = {q} →
        (step p (.toggle q) s).expandedNodes = {"root"}) := by
  constructor
  · intro e h
    cases e with
    | setInput i =>
      rw [step] at h ⊢
      exact expandEffect_nonempty _ h
    | toggle q =>
      rw [step] at h ⊢
      exact expandEffect_nonempty _ h
  · intro q htr hset
    rw [step]
    have htog : toggleNode q s.expandedNodes = ∅ := by
      rw [hset, toggleNode, if_pos (Finset.mem_singleton_self q)]
      exact Finset.erase_singleton q
    have hcond :
        jsTruthy ({ s with expandedNodes := toggleNode q s.expandedNodes } : AppState).parsedJson = true
        ∧ ({ s with expandedNodes := toggleNode q s.expandedNodes } : AppState).expandedNodes = ∅ :=
      ⟨htr, htog⟩
    rw [expandEffect, if_pos hcond]

/-- Witness for C10 (amended): collapsing the last expanded path `root`
of a truthy document resets the expanded set to `{root}`. -/
theorem autoExpand_truthy_witness :
    (step rawParseZero (.toggle "root")
        ⟨"x", .bool true, none, {"root"}⟩).expandedNodes = {"root"} :=
  (autoExpand_truthy rawParseZero ⟨"x", .bool true, none, {"root"}⟩).2 "root" rfl rfl
